import Mathlib

/-!
# Verification of the running-heatmap binning/aggregation engine

Shallow embedding of `src/heatmap.py` (repository `mshumko/running_heatmap`).
Coordinates and heat values are modelled as rationals (`ℚ`), exact stand-ins
for the float arithmetic of the source; indices as naturals.  numpy library
calls are modelled by their documented semantics:

* `np.searchsorted(bins, v)` (default `side='left'`) on a sorted `bins`
  returns the insertion index, i.e. the number of elements strictly below `v`;
* `np.clip` on integer indices is `min` together with truncated subtraction;
* `np.percentile` with the default linear interpolation sorts the data and
  interpolates between order statistics at virtual rank `p/100 * (n-1)`,
  raising for an argument outside `[0, 100]` or an empty array;
* `np.argmin` returns the first index attaining the minimum;
* `np.arange(start, stop, step)` produces `start + i*step` for
  `i < ⌈(stop-start)/step⌉`.
-/

namespace Heatmap

/-- `np.abs` on a rational, written executably so that concrete instances
reduce; `npAbs_eq_abs` below identifies it with `|·|`. -/
def npAbs (x : ℚ) : ℚ := if x < 0 then -x else x

/-- `np.searchsorted(bins, v)` with `side='left'` on sorted `bins`:
the number of bin boundaries strictly less than `v`. -/
def searchsortedLeft (bins : List ℚ) (v : ℚ) : ℕ :=
  bins.countP (fun b => decide (b < v))

/-- One lane of `_closest_indices_vectorized` (src/heatmap.py:14-27):
`idx = searchsorted(bins, v)`, `idx_left = clip(idx-1, 0, n-1)`,
`idx_right = clip(idx, 0, n-1)`, pick the right neighbour only when its
distance is strictly smaller. -/
def closestIndex (bins : List ℚ) (v : ℚ) : ℕ :=
  let n := bins.length
  let idx := searchsortedLeft bins v
  let idxLeft := min (idx - 1) (n - 1)
  let idxRight := min idx (n - 1)
  let leftDiff := npAbs (bins.getD idxLeft 0 - v)
  let rightDiff := npAbs (bins.getD idxRight 0 - v)
  if rightDiff < leftDiff then idxRight else idxLeft

/-- `_closest_indices_vectorized` applied to a batch of points: the empty
batch short-circuits to the empty result, otherwise one lookup per point. -/
def closestIndicesVectorized (points : List ℚ) (bins : List ℚ) : List ℕ :=
  if points.isEmpty then [] else points.map (fun p => closestIndex bins p)

/-- First index minimizing `|bins[i] - v|`, the semantics of
`np.argmin(np.abs(bins - v))` used by `Heatmap._get_closest_index`
(src/heatmap.py:320-322): `np.argmin` returns the first occurrence of the
minimum, so ties go to the lower index. -/
def argminAbs (v : ℚ) : List ℚ → ℕ
  | [] => 0
  | b :: rest =>
    match rest with
    | [] => 0
    | _ :: _ =>
      let j := argminAbs v rest
      if npAbs (rest.getD j 0 - v) < npAbs (b - v) then j + 1 else 0

/-- `Heatmap._get_closest_index` (src/heatmap.py:298-323): loops over
`zip(lons, lats)` and takes the per-axis argmin of absolute differences.
The Python asserts `len(lons) == len(lats)`; that assertion appears as a
hypothesis of the theorems about it. -/
def getClosestIndex (lonBins latBins : List ℚ) (lons lats : List ℚ) :
    List (ℕ × ℕ) :=
  (lons.zip lats).map (fun p => (argminAbs p.1 lonBins, argminAbs p.2 latBins))

/-- `k` is the first index minimizing the distance `|bins[k] - v|`:
it is in range, it minimizes, and any index at the same distance is ≥ `k`. -/
def IsLeastArgmin (bins : List ℚ) (v : ℚ) (k : ℕ) : Prop :=
  k < bins.length ∧
  (∀ i, i < bins.length → npAbs (bins.getD k 0 - v) ≤ npAbs (bins.getD i 0 - v)) ∧
  (∀ i, i < bins.length → npAbs (bins.getD i 0 - v) = npAbs (bins.getD k 0 - v) → k ≤ i)

/-- `np.arange(start, stop, step)`: the values `start + i*step` for
`i = 0, …, ⌈(stop-start)/step⌉ - 1` (empty when the count is nonpositive). -/
def arange (start stop step : ℚ) : List ℚ :=
  (List.range (⌈(stop - start) / step⌉).toNat).map (fun i : ℕ => start + (i : ℚ) * step)

/-- The bin set-up of `Heatmap.__init__` (src/heatmap.py:107-123), returning
`(lon_bins, lat_bins, center)`.  When either bin list is missing the code
overwrites `self.center` with the hard-coded `[-77, 39]` before branching on
`global_grid`; only the bins-supplied branch keeps the caller's `center`. -/
def heatmapInitBins (latBins lonBins : Option (List ℚ)) (center : Option (ℚ × ℚ))
    (boxWidth gridRes : ℚ) (globalGrid : Bool) :
    List ℚ × List ℚ × Option (ℚ × ℚ) :=
  if latBins.isNone ∨ lonBins.isNone then
    let c : ℚ × ℚ := (-77, 39)
    if globalGrid then
      (arange (-180) 180 gridRes, arange (-90) 90 gridRes, some c)
    else
      (arange (c.1 - boxWidth / 2) (c.1 + boxWidth / 2) gridRes,
       arange (c.2 - boxWidth / 2) (c.2 + boxWidth / 2) gridRes, some c)
  else
    (lonBins.getD [], latBins.getD [], center)

/-- One GPS sample: the two coordinates the engine uses. -/
structure TrackPoint where
  longitude : ℚ
  latitude : ℚ

/-- One track segment: the ordered list of its points. -/
abbrev TrackSegment := List TrackPoint

/-- One track: its list of segments, as exposed by `gpxpy`. -/
structure Track where
  segments : List TrackSegment

/-- A parsed gpx document: its list of tracks. -/
structure Gpx where
  tracks : List Track

/-- The segment collection loop of `_process_gpx_file` (src/heatmap.py:44-51):
all segments of all tracks, skipping those with `len(segment.points) == 0`. -/
def segmentsWithPoints (gpx : Gpx) : List TrackSegment :=
  (gpx.tracks.flatMap Track.segments).filter (fun s => decide (s.length ≠ 0))

/-- `_process_gpx_file` (src/heatmap.py:29-65).  A file whose parse raises
(`parsed = none`) or that has no non-empty segment returns the empty
`(rows, cols, data)` triple; otherwise rows/cols are the per-axis nearest
bin indices of the concatenated points and `data` is all ones. -/
def processGpxFile (parsed : Option Gpx) (lonBins latBins : List ℚ) :
    List ℕ × List ℕ × List ℕ :=
  match parsed with
  | none => ([], [], [])
  | some gpx =>
    let segs := segmentsWithPoints gpx
    if segs.isEmpty then ([], [], [])
    else
      let lons := segs.flatMap (fun s => s.map TrackPoint.longitude)
      let lats := segs.flatMap (fun s => s.map TrackPoint.latitude)
      let rows := closestIndicesVectorized lons lonBins
      let cols := closestIndicesVectorized lats latBins
      (rows, cols, List.replicate rows.length 1)

/-- One file's partial result as a list of `(row, col, count)` triples,
zipping the three parallel arrays returned by `_process_gpx_file`. -/
def fileTriples (result : List ℕ × List ℕ × List ℕ) : List (ℕ × ℕ × ℕ) :=
  result.1.zip (result.2.1.zip result.2.2)

/-- The count accumulated in one cell by a list of `(row, col, count)`
triples — the per-cell semantics of building `scipy.sparse.coo_matrix`
from `(data, (rows, cols))` and summing duplicates
(src/heatmap.py:163-165, 179-180). -/
def cellCount (triples : List (ℕ × ℕ × ℕ)) (cell : ℕ × ℕ) : ℕ :=
  (triples.map (fun t => if t.1 = cell.1 ∧ t.2.1 = cell.2 then t.2.2 else 0)).sum

/-- `Heatmap.make_heatmap_hist` (src/heatmap.py:146-180) as the final
per-cell count function: every file's triples are concatenated (both the
sequential and the pool path do exactly this) and duplicate cells summed
by the coo→csr conversion. -/
def makeHeatmapHist (files : List (Option Gpx)) (lonBins latBins : List ℚ) :
    ℕ × ℕ → ℕ :=
  cellCount (files.flatMap (fun f => fileTriples (processGpxFile f lonBins latBins)))

/-- Number of points a parse result carries: the summed lengths of all
segments of all tracks (0 for an unparseable file). -/
def totalPoints : Option Gpx → ℕ
  | none => 0
  | some gpx => ((gpx.tracks.flatMap Track.segments).map List.length).sum

/-- `np.percentile(values, p)` with the default linear interpolation:
sort ascending, take virtual rank `q = p/100 * (n-1)`, and interpolate
between the order statistics at `⌊q⌋` and `⌈q⌉`. -/
def npPercentile (values : List ℚ) (p : ℚ) : ℚ :=
  let s := values.insertionSort (· ≤ ·)
  let q : ℚ := p * ((values.length : ℚ) - 1) / 100
  let i := (⌊q⌋).toNat
  let j := (⌈q⌉).toNat
  s.getD i 0 + (q - ⌊q⌋) * (s.getD j 0 - s.getD i 0)

/-- The clipping body of `Heatmap._apply_percentile_mask`
(src/heatmap.py:389-391): values strictly above the percentile threshold
are replaced by the threshold. -/
def applyPercentileBody (heat : List ℚ) (percentile : ℚ) : List ℚ :=
  let t := npPercentile heat percentile
  heat.map (fun x => if t < x then t else x)

/-- `Heatmap._apply_percentile_mask` including the error behaviour of its
`np.percentile` call: numpy raises exactly when the percentile argument is
outside `[0, 100]` (or the array is empty); the method itself performs no
validation of its own. -/
def applyPercentileMask (heat : List ℚ) (percentile : ℚ) :
    Except String (List ℚ) :=
  if percentile < 0 ∨ 100 < percentile then
    Except.error "Percentiles must be in the range [0, 100]"
  else if heat.isEmpty then
    Except.error "zero-size array to reduction operation"
  else
    Except.ok (applyPercentileBody heat percentile)

/-- The saturation step of `Heatmap.make_map` (src/heatmap.py:231-236):
the mask is applied only when `saturation_percentile < 100`; otherwise the
heat column passes through untouched. -/
def makeMapHeat (heat : List ℚ) (saturationPercentile : ℚ) :
    Except String (List ℚ) :=
  if saturationPercentile < 100 then applyPercentileMask heat saturationPercentile
  else Except.ok heat

end Heatmap

namespace Heatmap

theorem npAbs_eq_abs (x : ℚ) : npAbs x = |x| := by
  by_cases h : x < 0
  · simp [npAbs, h, abs_of_neg h]
  · simp [npAbs, h, abs_of_nonneg (le_of_not_lt h)]

theorem npAbs_sub_of_le {x v : ℚ} (h : x ≤ v) : npAbs (x - v) = v - x := by
  unfold npAbs
  rcases lt_or_eq_of_le h with h' | h'
  · rw [if_pos (by linarith)]; ring
  · subst h'; simp

theorem npAbs_sub_of_ge {x v : ℚ} (h : v ≤ x) : npAbs (x - v) = x - v := by
  unfold npAbs
  rw [if_neg (by linarith)]

theorem searchsortedLeft_le_length (bins : List ℚ) (v : ℚ) :
    searchsortedLeft bins v ≤ bins.length :=
  List.countP_le_length _

/-- In a sorted list, the elements strictly below `v` are exactly the initial
segment of length `searchsortedLeft bins v`. -/
theorem getD_lt_iff_lt_searchsorted (bins : List ℚ) (v : ℚ)
    (hs : bins.Sorted (· < ·)) :
    ∀ i, i < bins.length → (bins.getD i 0 < v ↔ i < searchsortedLeft bins v) := by
  induction bins with
  | nil => intro i hi; simp at hi
  | cons b rest ih =>
    rw [List.sorted_cons] at hs
    obtain ⟨hb, hrest⟩ := hs
    intro i hi
    have hcons : searchsortedLeft (b :: rest) v
        = rest.countP (fun x => decide (x < v)) + if b < v then 1 else 0 := by
      simp [searchsortedLeft, List.countP_cons]
    cases i with
    | zero =>
      simp only [List.getD_cons_zero]
      constructor
      · intro h
        rw [hcons, if_pos h]
        omega
      · intro h
        by_contra hbv
        push_neg at hbv
        have hz : rest.countP (fun x => decide (x < v)) = 0 := by
          rw [List.countP_eq_zero]
          intro x hx
          simp only [decide_eq_true_eq]
          exact not_lt.mpr (le_trans hbv (le_of_lt (hb x hx)))
        rw [hcons, hz, if_neg (not_lt.mpr hbv)] at h
        omega
    | succ i =>
      simp only [List.getD_cons_succ]
      have hi' : i < rest.length := by simpa using hi
      have hiff := ih hrest i hi'
      by_cases hbv : b < v
      · rw [hcons, if_pos hbv]
        rw [hiff]
        unfold searchsortedLeft
        omega
      · push_neg at hbv
        have hz : rest.countP (fun x => decide (x < v)) = 0 := by
          rw [List.countP_eq_zero]
          intro x hx
          simp only [decide_eq_true_eq]
          exact not_lt.mpr (le_trans hbv (le_of_lt (hb x hx)))
        have hz' : searchsortedLeft rest v = 0 := hz
        rw [hcons, hz, if_neg (not_lt.mpr hbv)]
        rw [hiff, hz']
        omega

theorem sorted_getD_lt_getD (bins : List ℚ) (hs : bins.Sorted (· < ·))
    {i j : ℕ} (hij : i < j) (hj : j < bins.length) :
    bins.getD i 0 < bins.getD j 0 := by
  have hi : i < bins.length := lt_trans hij hj
  rw [List.getD_eq_getElem bins 0 hi, List.getD_eq_getElem bins 0 hj]
  exact List.Sorted.rel_get_of_lt hs (a := ⟨i, hi⟩) (b := ⟨j, hj⟩) hij

theorem closestIndex_isLeastArgmin (bins : List ℚ) (v : ℚ)
    (hne : bins ≠ []) (hs : bins.Sorted (· < ·)) :
    IsLeastArgmin bins v (closestIndex bins v) := by
  have hn : 0 < bins.length := List.length_pos.mpr hne
  have hidxle : searchsortedLeft bins v ≤ bins.length :=
    searchsortedLeft_le_length bins v
  have hiff := getD_lt_iff_lt_searchsorted bins v hs
  set n := bins.length with hndef
  set idx := searchsortedLeft bins v with hidxdef
  have hlow : ∀ i, i < n → i < idx → bins.getD i 0 < v := fun i hi hilt =>
    (hiff i hi).mpr hilt
  have hhigh : ∀ i, i < n → idx ≤ i → v ≤ bins.getD i 0 := fun i hi hile =>
    le_of_not_lt (fun hc => absurd ((hiff i hi).mp hc) (not_lt.mpr hile))
  have dLow : ∀ i j : ℕ, i ≤ j → j < idx → j < n →
      npAbs (bins.getD j 0 - v) ≤ npAbs (bins.getD i 0 - v) := by
    intro i j hij hjidx hjn
    have hi : i < n := lt_of_le_of_lt hij hjn
    rw [npAbs_sub_of_le (le_of_lt (hlow j hjn hjidx)),
        npAbs_sub_of_le (le_of_lt (hlow i hi (lt_of_le_of_lt hij hjidx)))]
    rcases lt_or_eq_of_le hij with h | h
    · have := sorted_getD_lt_getD bins hs h hjn
      linarith
    · subst h; linarith
  have dLowStrict : ∀ i j : ℕ, i < j → j < idx → j < n →
      npAbs (bins.getD j 0 - v) < npAbs (bins.getD i 0 - v) := by
    intro i j hij hjidx hjn
    have hi : i < n := lt_trans hij hjn
    rw [npAbs_sub_of_le (le_of_lt (hlow j hjn hjidx)),
        npAbs_sub_of_le (le_of_lt (hlow i hi (lt_trans hij hjidx)))]
    have := sorted_getD_lt_getD bins hs hij hjn
    linarith
  have dHigh : ∀ i j : ℕ, idx ≤ i → i ≤ j → j < n →
      npAbs (bins.getD i 0 - v) ≤ npAbs (bins.getD j 0 - v) := by
    intro i j hidxi hij hjn
    have hi : i < n := lt_of_le_of_lt hij hjn
    rw [npAbs_sub_of_ge (hhigh i hi hidxi),
        npAbs_sub_of_ge (hhigh j hjn (le_trans hidxi hij))]
    rcases lt_or_eq_of_le hij with h | h
    · have := sorted_getD_lt_getD bins hs h hjn
      linarith
    · subst h; linarith
  -- the three possible shapes of the searchsorted result
  rcases Nat.eq_zero_or_pos idx with hidx0 | hidxpos
  · -- idx = 0 : the value sits at or below the first boundary
    have hk : closestIndex bins v = 0 := by
      unfold closestIndex
      rw [← hidxdef, ← hndef, hidx0]
      simp
    rw [hk]
    refine ⟨hn, fun i hi => dHigh 0 i (by omega) (Nat.zero_le i) hi,
      fun i _ _ => Nat.zero_le i⟩
  rcases eq_or_lt_of_le hidxle with hidxn | hidxlt
  · -- idx = n : the value sits above the last boundary
    have hk : closestIndex bins v = n - 1 := by
      unfold closestIndex
      rw [← hidxdef, ← hndef, hidxn]
      have h1 : min (n - 1) (n - 1) = n - 1 := min_self _
      have h2 : min n (n - 1) = n - 1 := by omega
      simp only [h1, h2, ite_self]
    rw [hk]
    refine ⟨by omega, fun i hi => dLow i (n - 1) (by omega) (by omega) (by omega),
      fun i hi heq => ?_⟩
    by_contra hcon
    push_neg at hcon
    have := dLowStrict i (n - 1) (by omega) (by omega) (by omega)
    rw [heq] at this
    exact lt_irrefl _ this
  · -- 0 < idx < n : the value has a boundary on each side
    have hL : min (idx - 1) (n - 1) = idx - 1 := by omega
    have hR : min idx (n - 1) = idx := by omega
    have hkdef : closestIndex bins v =
        if npAbs (bins.getD idx 0 - v) < npAbs (bins.getD (idx - 1) 0 - v)
        then idx else idx - 1 := by
      unfold closestIndex
      rw [← hidxdef, ← hndef]
      simp only [hL, hR]
    by_cases hcmp : npAbs (bins.getD idx 0 - v) < npAbs (bins.getD (idx - 1) 0 - v)
    · -- right neighbour strictly closer
      have hk : closestIndex bins v = idx := by rw [hkdef, if_pos hcmp]
      rw [hk]
      refine ⟨hidxlt, fun i hi => ?_, fun i hi heq => ?_⟩
      · rcases lt_or_le i idx with h | h
        · calc npAbs (bins.getD idx 0 - v)
              ≤ npAbs (bins.getD (idx - 1) 0 - v) := le_of_lt hcmp
            _ ≤ npAbs (bins.getD i 0 - v) := dLow i (idx - 1) (by omega) (by omega) (by omega)
        · exact dHigh idx i (le_refl idx) h hi
      · by_contra hcon
        push_neg at hcon
        have h1 : npAbs (bins.getD (idx - 1) 0 - v) ≤ npAbs (bins.getD i 0 - v) :=
          dLow i (idx - 1) (by omega) (by omega) (by omega)
        rw [heq] at h1
        exact absurd (lt_of_lt_of_le hcmp h1) (lt_irrefl _)
    · -- tie or left closer: lower index wins
      have hk : closestIndex bins v = idx - 1 := by rw [hkdef, if_neg hcmp]
      push_neg at hcmp
      rw [hk]
      refine ⟨by omega, fun i hi => ?_, fun i hi heq => ?_⟩
      · rcases lt_or_le i idx with h | h
        · exact dLow i (idx - 1) (by omega) (by omega) (by omega)
        · calc npAbs (bins.getD (idx - 1) 0 - v)
              ≤ npAbs (bins.getD idx 0 - v) := hcmp
            _ ≤ npAbs (bins.getD i 0 - v) := dHigh idx i (le_refl idx) h hi
      · by_contra hcon
        push_neg at hcon
        have := dLowStrict i (idx - 1) (by omega) (by omega) (by omega)
        rw [heq] at this
        exact lt_irrefl _ this

theorem argminAbs_isLeastArgmin (v : ℚ) (bins : List ℚ) (hne : bins ≠ []) :
    IsLeastArgmin bins v (argminAbs v bins) := by
  induction bins with
  | nil => exact absurd rfl hne
  | cons b rest ih =>
    cases rest with
    | nil =>
      refine ⟨by simp [argminAbs], fun i hi => ?_, fun i hi _ => ?_⟩
      · have : i = 0 := by simpa using hi
        subst this
        simp [argminAbs]
      · simp [argminAbs]
    | cons r rs =>
      have hrest : (r :: rs : List ℚ) ≠ [] := by simp
      obtain ⟨hjlt, hjmin, hjleast⟩ := ih hrest
      set j := argminAbs v (r :: rs) with hjdef
      have hunfold : argminAbs v (b :: r :: rs) =
          if npAbs ((r :: rs).getD j 0 - v) < npAbs (b - v) then j + 1 else 0 := by
        rw [argminAbs]
      by_cases hcmp : npAbs ((r :: rs).getD j 0 - v) < npAbs (b - v)
      · rw [hunfold, if_pos hcmp]
        refine ⟨by simpa using hjlt, fun i hi => ?_, fun i hi heq => ?_⟩
        · cases i with
          | zero => simpa using le_of_lt hcmp
          | succ i =>
            simp only [List.getD_cons_succ]
            exact hjmin i (by simpa using hi)
        · cases i with
          | zero =>
            simp only [List.getD_cons_zero, List.getD_cons_succ] at heq
            rw [heq] at hcmp
            exact absurd hcmp (lt_irrefl _)
          | succ i =>
            simp only [List.getD_cons_succ] at heq
            exact Nat.succ_le_succ (hjleast i (by simpa using hi) heq)
      · rw [hunfold, if_neg hcmp]
        push_neg at hcmp
        refine ⟨by simp, fun i hi => ?_, fun i _ _ => Nat.zero_le i⟩
        cases i with
        | zero => simp
        | succ i =>
          simp only [List.getD_cons_zero, List.getD_cons_succ]
          exact le_trans hcmp (hjmin i (by simpa using hi))

theorem isLeastArgmin_unique {bins : List ℚ} {v : ℚ} {k₁ k₂ : ℕ}
    (h₁ : IsLeastArgmin bins v k₁) (h₂ : IsLeastArgmin bins v k₂) : k₁ = k₂ := by
  obtain ⟨hk₁, hmin₁, hleast₁⟩ := h₁
  obtain ⟨hk₂, hmin₂, hleast₂⟩ := h₂
  have hd : npAbs (bins.getD k₁ 0 - v) = npAbs (bins.getD k₂ 0 - v) :=
    le_antisymm (hmin₁ k₂ hk₂) (hmin₂ k₁ hk₁)
  exact le_antisymm (hleast₁ k₂ hk₂ hd.symm) (hleast₂ k₁ hk₁ hd)

theorem sorted_head_le_of_mem {bins : List ℚ} (hs : bins.Sorted (· < ·))
    {x : ℚ} (hx : x ∈ bins) : bins.getD 0 0 ≤ x := by
  rw [List.mem_iff_get] at hx
  obtain ⟨i, rfl⟩ := hx
  have hi : (i : ℕ) < bins.length := i.isLt
  rcases Nat.eq_zero_or_pos (i : ℕ) with h0 | hpos
  · rw [List.getD_eq_getElem bins 0 (by omega), List.get_eq_getElem]
    simp only [h0, le_refl]
  · rw [List.getD_eq_getElem bins 0 (by omega)]
    exact le_of_lt (List.Sorted.rel_get_of_lt hs (a := ⟨0, by omega⟩) (b := i) hpos)

theorem sorted_le_getLast_of_mem {bins : List ℚ} (hs : bins.Sorted (· < ·))
    {x : ℚ} (hx : x ∈ bins) : x ≤ bins.getD (bins.length - 1) 0 := by
  rw [List.mem_iff_get] at hx
  obtain ⟨i, rfl⟩ := hx
  have hi : (i : ℕ) < bins.length := i.isLt
  rcases eq_or_lt_of_le (Nat.le_sub_one_of_lt hi) with h0 | hpos
  · rw [List.getD_eq_getElem bins 0 (by omega), List.get_eq_getElem]
    simp only [h0, le_refl]
  · rw [List.getD_eq_getElem bins 0 (by omega)]
    exact le_of_lt (List.Sorted.rel_get_of_lt hs
      (a := i) (b := ⟨bins.length - 1, by omega⟩) hpos)

theorem closestIndex_of_searchsorted_zero {bins : List ℚ} {v : ℚ}
    (h : searchsortedLeft bins v = 0) : closestIndex bins v = 0 := by
  unfold closestIndex
  rw [h]
  simp

theorem closestIndex_of_searchsorted_length {bins : List ℚ} {v : ℚ}
    (hne : bins ≠ []) (h : searchsortedLeft bins v = bins.length) :
    closestIndex bins v = bins.length - 1 := by
  have hn : 0 < bins.length := List.length_pos.mpr hne
  unfold closestIndex
  rw [h]
  have h1 : min (bins.length - 1) (bins.length - 1) = bins.length - 1 := min_self _
  have h2 : min bins.length (bins.length - 1) = bins.length - 1 := by omega
  simp only [h1, h2, ite_self]

theorem closestIndicesVectorized_eq_map (points bins : List ℚ) :
    closestIndicesVectorized points bins
      = points.map (fun p => closestIndex bins p) := by
  unfold closestIndicesVectorized
  by_cases h : points.isEmpty
  · rw [if_pos h]
    rw [List.isEmpty_iff] at h
    subst h
    simp
  · rw [if_neg h]

theorem argminAbs_eq_closestIndex (bins : List ℚ) (v : ℚ)
    (hne : bins ≠ []) (hs : bins.Sorted (· < ·)) :
    argminAbs v bins = closestIndex bins v :=
  isLeastArgmin_unique (argminAbs_isLeastArgmin v bins hne)
    (closestIndex_isLeastArgmin bins v hne hs)

end Heatmap

namespace Heatmap

/-- Claim C1: for every non-empty strictly increasing bins sequence and every
value strictly inside the range `[bins[0], bins[last]]`, the nearest-index
lookup `_closest_indices_vectorized` returns the index minimizing
`abs(bins[idx] - value)`, and when two boundaries are equidistant from the
value it returns the lower of the two indices (any index at the same distance
is not below the returned one). -/
theorem nearest_index_minimizes (bins : List ℚ) (v : ℚ)
    (hne : bins ≠ []) (hs : bins.Sorted (· < ·))
    (hlo : bins.getD 0 0 < v) (hhi : v < bins.getD (bins.length - 1) 0) :
    closestIndex bins v < bins.length ∧
    (∀ i, i < bins.length →
      npAbs (bins.getD (closestIndex bins v) 0 - v) ≤ npAbs (bins.getD i 0 - v)) ∧
    (∀ i, i < bins.length →
      npAbs (bins.getD i 0 - v) = npAbs (bins.getD (closestIndex bins v) 0 - v) →
      closestIndex bins v ≤ i) :=
  closestIndex_isLeastArgmin bins v hne hs

/-- Witness for C1, at the spec's own example `bins = [0,1,2,3]`,
`value = 3/2` (the midpoint tie, which resolves to index 1). -/
theorem nearest_index_minimizes_witness :
    ([0, 1, 2, 3] : List ℚ) ≠ [] ∧
    ([0, 1, 2, 3] : List ℚ).Sorted (· < ·) ∧
    ([0, 1, 2, 3] : List ℚ).getD 0 0 < 3/2 ∧
    (3/2 : ℚ) < ([0, 1, 2, 3] : List ℚ).getD (([0, 1, 2, 3] : List ℚ).length - 1) 0 ∧
    closestIndex [0, 1, 2, 3] (3/2) = 1 ∧
    (closestIndex [0, 1, 2, 3] (3/2) < ([0, 1, 2, 3] : List ℚ).length ∧
     (∀ i, i < ([0, 1, 2, 3] : List ℚ).length →
       npAbs (([0, 1, 2, 3] : List ℚ).getD (closestIndex [0, 1, 2, 3] (3/2)) 0 - 3/2)
         ≤ npAbs (([0, 1, 2, 3] : List ℚ).getD i 0 - 3/2)) ∧
     (∀ i, i < ([0, 1, 2, 3] : List ℚ).length →
       npAbs (([0, 1, 2, 3] : List ℚ).getD i 0 - 3/2)
         = npAbs (([0, 1, 2, 3] : List ℚ).getD (closestIndex [0, 1, 2, 3] (3/2)) 0 - 3/2) →
       closestIndex [0, 1, 2, 3] (3/2) ≤ i)) :=
  ⟨by simp, by norm_num [List.sorted_cons], by norm_num, by norm_num,
   by norm_num [closestIndex, searchsortedLeft, npAbs, List.countP, List.countP.go],
   nearest_index_minimizes [0, 1, 2, 3] (3/2) (by simp)
     (by norm_num [List.sorted_cons]) (by norm_num) (by norm_num)⟩

/-- Claim C8: for a non-empty strictly increasing bins sequence, a value
below the first boundary maps to index 0 and a value above the last boundary
maps to index `len(bins) - 1`; out-of-range values never fail. -/
theorem closest_index_clamps_out_of_range (bins : List ℚ) (v : ℚ)
    (hne : bins ≠ []) (hs : bins.Sorted (· < ·)) :
    (v < bins.getD 0 0 → closestIndex bins v = 0) ∧
    (bins.getD (bins.length - 1) 0 < v → closestIndex bins v = bins.length - 1) := by
  constructor
  · intro hv
    apply closestIndex_of_searchsorted_zero
    unfold searchsortedLeft
    rw [List.countP_eq_zero]
    intro x hx
    simp only [decide_eq_true_eq]
    exact not_lt.mpr (le_of_lt (lt_of_lt_of_le hv (sorted_head_le_of_mem hs hx)))
  · intro hv
    apply closestIndex_of_searchsorted_length hne
    unfold searchsortedLeft
    rw [List.countP_eq_length]
    intro x hx
    simp only [decide_eq_true_eq]
    exact lt_of_le_of_lt (sorted_le_getLast_of_mem hs hx) hv

/-- Witness for C8, at the spec's example: `bins = [0,1,2,3]`,
`value = -5` → index 0 and `value = 99` → index 3. -/
theorem closest_index_clamps_witness :
    closestIndex [0, 1, 2, 3] (-5) = 0 ∧ closestIndex [0, 1, 2, 3] 99 = 3 := by
  constructor
  · exact (closest_index_clamps_out_of_range [0, 1, 2, 3] (-5) (by simp)
      (by norm_num [List.sorted_cons])).1 (by norm_num)
  · have h := (closest_index_clamps_out_of_range [0, 1, 2, 3] 99 (by simp)
      (by norm_num [List.sorted_cons])).2 (by norm_num)
    simpa using h

/-- Claim C10: on every pair of equal-length lon/lat batches and non-empty
strictly increasing bin sequences, the loop-based argmin lookup
`_get_closest_index` computes per point and per axis exactly the same indices
as the `searchsorted`-based `_closest_indices_vectorized`. -/
theorem get_closest_index_eq_vectorized (lonBins latBins lons lats : List ℚ)
    (hlonne : lonBins ≠ []) (hlatne : latBins ≠ [])
    (hlon : lonBins.Sorted (· < ·)) (hlat : latBins.Sorted (· < ·))
    (hlen : lons.length = lats.length) :
    getClosestIndex lonBins latBins lons lats
      = (closestIndicesVectorized lons lonBins).zip
          (closestIndicesVectorized lats latBins) := by
  rw [closestIndicesVectorized_eq_map, closestIndicesVectorized_eq_map,
    List.zip_map]
  unfold getClosestIndex
  apply List.map_congr_left
  intro p _
  have h1 := argminAbs_eq_closestIndex lonBins p.1 hlonne hlon
  have h2 := argminAbs_eq_closestIndex latBins p.2 hlatne hlat
  simp [Prod.map, h1, h2]

/-- Witness for C10 at a concrete batch of two points and two axes. -/
theorem get_closest_index_eq_vectorized_witness :
    ([0, 1] : List ℚ) ≠ [] ∧ ([0, 2] : List ℚ) ≠ [] ∧
    ([0, 1] : List ℚ).Sorted (· < ·) ∧ ([0, 2] : List ℚ).Sorted (· < ·) ∧
    ([1/2, 5] : List ℚ).length = ([0, -3] : List ℚ).length ∧
    getClosestIndex [0, 1] [0, 2] [1/2, 5] [0, -3]
      = (closestIndicesVectorized [1/2, 5] [0, 1]).zip
          (closestIndicesVectorized [0, -3] [0, 2]) :=
  ⟨by simp, by simp, by norm_num [List.sorted_cons], by norm_num [List.sorted_cons],
   rfl,
   get_closest_index_eq_vectorized [0, 1] [0, 2] [1/2, 5] [0, -3]
     (by simp) (by simp) (by norm_num [List.sorted_cons])
     (by norm_num [List.sorted_cons]) rfl⟩

end Heatmap

namespace Heatmap

theorem closestIndex_lt_length {bins : List ℚ} (hne : bins ≠ []) (v : ℚ) :
    closestIndex bins v < bins.length := by
  have hn : 0 < bins.length := List.length_pos.mpr hne
  unfold closestIndex
  dsimp only
  split <;> omega

theorem zip_map_third {rows cols data : List ℕ} (h1 : rows.length = cols.length)
    (h2 : cols.length = data.length) :
    (rows.zip (cols.zip data)).map (fun t => t.2.2) = data := by
  induction rows generalizing cols data with
  | nil =>
    cases cols with
    | nil =>
      cases data with
      | nil => simp
      | cons d ds => simp at h2
    | cons c cs => simp at h1
  | cons r rs ih =>
    cases cols with
    | nil => simp at h1
    | cons c cs =>
      cases data with
      | nil => simp at h2
      | cons d ds =>
        simp only [List.zip_cons_cons, List.map_cons]
        rw [ih (by simpa using h1) (by simpa using h2)]

theorem fileTriples_mem {result : List ℕ × List ℕ × List ℕ} {t : ℕ × ℕ × ℕ}
    (ht : t ∈ fileTriples result) :
    t.1 ∈ result.1 ∧ t.2.1 ∈ result.2.1 ∧ t.2.2 ∈ result.2.2 := by
  obtain ⟨a, b, c⟩ := t
  unfold fileTriples at ht
  have h1 := List.of_mem_zip ht
  have h2 := List.of_mem_zip h1.2
  exact ⟨h1.1, h2.1, h2.2⟩

theorem sum_length_filter (segs : List TrackSegment) :
    ((segs.filter (fun s => decide (s.length ≠ 0))).map List.length).sum
      = (segs.map List.length).sum := by
  induction segs with
  | nil => simp
  | cons s ss ih =>
    rw [List.filter_cons]
    by_cases h : s.length = 0
    · rw [if_neg (by simp [h])]
      rw [ih, List.map_cons, List.sum_cons, h, Nat.zero_add]
    · rw [if_pos (by simp [h])]
      rw [List.map_cons, List.sum_cons, List.map_cons, List.sum_cons, ih]

theorem flatMap_map_length (segs : List TrackSegment) (f : TrackPoint → ℚ) :
    (segs.flatMap (fun s => s.map f)).length = (segs.map List.length).sum := by
  rw [List.length_flatMap]
  congr 1
  apply List.map_congr_left
  intro s _
  simp

/-- Per-file contract used by the aggregation claims: each triple of one
file's partial result names an in-range cell and carries count 1, and the
counts sum to the file's point total. -/
theorem processGpxFile_spec (parsed : Option Gpx) (lonBins latBins : List ℚ)
    (hlon : lonBins ≠ []) (hlat : latBins ≠ []) :
    (∀ t ∈ fileTriples (processGpxFile parsed lonBins latBins),
        t.1 < lonBins.length ∧ t.2.1 < latBins.length ∧ t.2.2 = 1) ∧
    ((fileTriples (processGpxFile parsed lonBins latBins)).map (fun t => t.2.2)).sum
      = totalPoints parsed := by
  match parsed with
  | none =>
    constructor
    · intro t ht
      simp [processGpxFile, fileTriples] at ht
    · simp [processGpxFile, fileTriples, totalPoints]
  | some gpx =>
    by_cases hseg : (segmentsWithPoints gpx).isEmpty
    · have hempty : processGpxFile (some gpx) lonBins latBins = ([], [], []) := by
        simp [processGpxFile, hseg]
      have hzero : totalPoints (some gpx) = 0 := by
        rw [List.isEmpty_iff] at hseg
        unfold segmentsWithPoints at hseg
        rw [List.filter_eq_nil_iff] at hseg
        unfold totalPoints
        rw [List.sum_eq_zero_iff]
        intro x hx
        rw [List.mem_map] at hx
        obtain ⟨s, hs, rfl⟩ := hx
        have := hseg s hs
        simpa using this
      rw [hempty, hzero]
      constructor
      · intro t ht
        simp [fileTriples] at ht
      · simp [fileTriples]
    · have hproc : processGpxFile (some gpx) lonBins latBins =
          (closestIndicesVectorized
              ((segmentsWithPoints gpx).flatMap (fun s => s.map TrackPoint.longitude))
              lonBins,
           closestIndicesVectorized
              ((segmentsWithPoints gpx).flatMap (fun s => s.map TrackPoint.latitude))
              latBins,
           List.replicate
             (closestIndicesVectorized
                ((segmentsWithPoints gpx).flatMap (fun s => s.map TrackPoint.longitude))
                lonBins).length 1) := by
        simp [processGpxFile, hseg]
      set lons := (segmentsWithPoints gpx).flatMap (fun s => s.map TrackPoint.longitude)
        with hlonsdef
      set lats := (segmentsWithPoints gpx).flatMap (fun s => s.map TrackPoint.latitude)
        with hlatsdef
      have hrows : closestIndicesVectorized lons lonBins
          = lons.map (fun p => closestIndex lonBins p) :=
        closestIndicesVectorized_eq_map lons lonBins
      have hcols : closestIndicesVectorized lats latBins
          = lats.map (fun p => closestIndex latBins p) :=
        closestIndicesVectorized_eq_map lats latBins
      have hlens : lons.length = lats.length := by
        rw [hlonsdef, hlatsdef, flatMap_map_length, flatMap_map_length]
      have hlen1 : (closestIndicesVectorized lons lonBins).length
          = (closestIndicesVectorized lats latBins).length := by
        rw [hrows, hcols, List.length_map, List.length_map, hlens]
      have hlen2 : (closestIndicesVectorized lats latBins).length
          = (List.replicate (closestIndicesVectorized lons lonBins).length 1).length := by
        rw [List.length_replicate, hlen1]
      constructor
      · intro t ht
        rw [hproc] at ht
        obtain ⟨h1, h2, h3⟩ := fileTriples_mem ht
        refine ⟨?_, ?_, List.eq_of_mem_replicate h3⟩
        · rw [hrows, List.mem_map] at h1
          obtain ⟨p, _, heq⟩ := h1
          rw [← heq]
          exact closestIndex_lt_length hlon p
        · rw [hcols, List.mem_map] at h2
          obtain ⟨p, _, heq⟩ := h2
          rw [← heq]
          exact closestIndex_lt_length hlat p
      · rw [hproc]
        unfold fileTriples
        rw [zip_map_third hlen1 hlen2]
        rw [List.sum_replicate, smul_eq_mul, mul_one]
        rw [hrows, List.length_map]
        rw [hlonsdef, flatMap_map_length]
        unfold totalPoints segmentsWithPoints
        exact sum_length_filter _

theorem cellCount_cons (t : ℕ × ℕ × ℕ) (ts : List (ℕ × ℕ × ℕ)) (cell : ℕ × ℕ) :
    cellCount (t :: ts) cell
      = (if t.1 = cell.1 ∧ t.2.1 = cell.2 then t.2.2 else 0) + cellCount ts cell := by
  simp [cellCount]

/-- Summing a triple list's per-cell counts over the whole grid recovers the
sum of the counts, provided every triple is in range. -/
theorem sum_cellCount_eq (triples : List (ℕ × ℕ × ℕ)) (nlon nlat : ℕ)
    (hb : ∀ t ∈ triples, t.1 < nlon ∧ t.2.1 < nlat) :
    (∑ cell ∈ Finset.range nlon ×ˢ Finset.range nlat, cellCount triples cell)
      = (triples.map (fun t => t.2.2)).sum := by
  induction triples with
  | nil => simp [cellCount]
  | cons t ts ih =>
    rw [Finset.sum_congr rfl (fun cell _ => cellCount_cons t ts cell)]
    rw [Finset.sum_add_distrib]
    have hmem : (t.1, t.2.1) ∈ Finset.range nlon ×ˢ Finset.range nlat := by
      rw [Finset.mem_product, Finset.mem_range, Finset.mem_range]
      exact ⟨(hb t (List.mem_cons_self t ts)).1, (hb t (List.mem_cons_self t ts)).2⟩
    have h1 : (∑ cell ∈ Finset.range nlon ×ˢ Finset.range nlat,
        if t.1 = cell.1 ∧ t.2.1 = cell.2 then t.2.2 else 0) = t.2.2 := by
      have hcong : ∀ cell : ℕ × ℕ,
          (if t.1 = cell.1 ∧ t.2.1 = cell.2 then t.2.2 else 0)
            = if (t.1, t.2.1) = cell then t.2.2 else 0 := by
        intro cell
        simp [Prod.ext_iff]
      rw [Finset.sum_congr rfl (fun cell _ => hcong cell)]
      rw [Finset.sum_ite_eq, if_pos hmem]
    rw [h1, ih (fun x hx => hb x (List.mem_cons_of_mem t hx))]
    simp

end Heatmap

namespace Heatmap

/-- Claim C4: conservation — after a run over any file list on non-empty
grids, the grid-wide sum of all cell counters equals the total number of
points across all successfully parsed files (the sum over files of the
points in all their tracks' segments), and every binned point enters the
store with count exactly 1. -/
theorem heatmap_conservation (files : List (Option Gpx)) (lonBins latBins : List ℚ)
    (hlon : lonBins ≠ []) (hlat : latBins ≠ []) :
    (∑ cell ∈ Finset.range lonBins.length ×ˢ Finset.range latBins.length,
        makeHeatmapHist files lonBins latBins cell)
      = (files.map totalPoints).sum ∧
    (∀ t ∈ files.flatMap (fun f => fileTriples (processGpxFile f lonBins latBins)),
        t.2.2 = 1) := by
  have hmem : ∀ t ∈ files.flatMap (fun f => fileTriples (processGpxFile f lonBins latBins)),
      t.1 < lonBins.length ∧ t.2.1 < latBins.length ∧ t.2.2 = 1 := by
    intro t ht
    rw [List.mem_flatMap] at ht
    obtain ⟨f, _, htf⟩ := ht
    exact (processGpxFile_spec f lonBins latBins hlon hlat).1 t htf
  constructor
  · unfold makeHeatmapHist
    rw [sum_cellCount_eq _ _ _ (fun t ht => ⟨(hmem t ht).1, (hmem t ht).2.1⟩)]
    induction files with
    | nil => simp
    | cons f fs ih =>
      simp only [List.flatMap_cons, List.map_append, List.sum_append,
        List.map_cons, List.sum_cons]
      rw [ih (fun t ht => hmem t (by
            rw [List.flatMap_cons]
            exact List.mem_append_right _ ht)),
        (processGpxFile_spec f lonBins latBins hlon hlat).2]
  · exact fun t ht => (hmem t ht).2.2

/-- Witness for C4: one parsed file with three points on the spec's
3×3 grid scenario plus one unparseable file. -/
theorem heatmap_conservation_witness :
    ([-1, 0, 1] : List ℚ) ≠ [] ∧ ([-1, 0, 1] : List ℚ) ≠ [] ∧
    ((∑ cell ∈ Finset.range ([-1, 0, 1] : List ℚ).length
          ×ˢ Finset.range ([-1, 0, 1] : List ℚ).length,
        makeHeatmapHist
          [some ⟨[⟨[[⟨-9/10, -9/10⟩, ⟨1/10, 1/10⟩, ⟨9/10, 9/10⟩]]⟩]⟩, none]
          [-1, 0, 1] [-1, 0, 1] cell)
      = (([some ⟨[⟨[[⟨-9/10, -9/10⟩, ⟨1/10, 1/10⟩, ⟨9/10, 9/10⟩]]⟩]⟩,
           none] : List (Option Gpx)).map totalPoints).sum ∧
     (∀ t ∈ ([some ⟨[⟨[[⟨-9/10, -9/10⟩, ⟨1/10, 1/10⟩, ⟨9/10, 9/10⟩]]⟩]⟩,
           none] : List (Option Gpx)).flatMap
         (fun f => fileTriples (processGpxFile f [-1, 0, 1] [-1, 0, 1])),
        t.2.2 = 1)) :=
  ⟨by simp, by simp,
   heatmap_conservation
     [some ⟨[⟨[[⟨-9/10, -9/10⟩, ⟨1/10, 1/10⟩, ⟨9/10, 9/10⟩]]⟩]⟩, none]
     [-1, 0, 1] [-1, 0, 1] (by simp) (by simp)⟩

/-- Claim C5: merging partial results is order-independent — any reordering
of the triple lists, any two-way partition merged in either order, and any
reordering of the file list all produce the same final per-cell counts. -/
theorem merge_order_invariant :
    (∀ partials₁ partials₂ : List (ℕ × ℕ × ℕ), partials₁.Perm partials₂ →
        cellCount partials₁ = cellCount partials₂) ∧
    (∀ partialsA partialsB : List (ℕ × ℕ × ℕ),
        cellCount (partialsA ++ partialsB) = cellCount (partialsB ++ partialsA)) ∧
    (∀ (files₁ files₂ : List (Option Gpx)) (lonBins latBins : List ℚ),
        files₁.Perm files₂ →
        makeHeatmapHist files₁ lonBins latBins
          = makeHeatmapHist files₂ lonBins latBins) := by
  have hcell : ∀ partials₁ partials₂ : List (ℕ × ℕ × ℕ), partials₁.Perm partials₂ →
      cellCount partials₁ = cellCount partials₂ := by
    intro l₁ l₂ h
    funext cell
    exact (h.map (fun t => if t.1 = cell.1 ∧ t.2.1 = cell.2 then t.2.2 else 0)).sum_eq
  refine ⟨hcell, fun a b => hcell _ _ (List.perm_append_comm), ?_⟩
  intro files₁ files₂ lonBins latBins h
  unfold makeHeatmapHist
  exact hcell _ _ (h.flatMap_right _)

/-- Witness for C5: two concrete partial results merged in both orders. -/
theorem merge_order_invariant_witness :
    ([((0:ℕ), (0:ℕ), (1:ℕ)), (1, 1, 2)] : List (ℕ × ℕ × ℕ)).Perm
        [(1, 1, 2), (0, 0, 1)] ∧
    cellCount [((0:ℕ), (0:ℕ), (1:ℕ)), (1, 1, 2)] = cellCount [(1, 1, 2), (0, 0, 1)] :=
  ⟨List.Perm.swap (1, 1, 2) (0, 0, 1) [],
   merge_order_invariant.1 _ _ (List.Perm.swap (1, 1, 2) (0, 0, 1) [])⟩

/-- Claim C6: a file that cannot be parsed (`parsed = none`) or is
syntactically empty (no points in any segment) yields the empty partial
result — zero triples contributing zero counts everywhere — and the
aggregation function returns normally rather than raising. -/
theorem bad_file_yields_empty (lonBins latBins : List ℚ) (parsed : Option Gpx)
    (h : parsed = none ∨ totalPoints parsed = 0) :
    processGpxFile parsed lonBins latBins = ([], [], []) ∧
    (∀ cell, cellCount (fileTriples (processGpxFile parsed lonBins latBins)) cell = 0) := by
  have hempty : processGpxFile parsed lonBins latBins = ([], [], []) := by
    match parsed with
    | none => rfl
    | some gpx =>
      rcases h with h | h
      · exact absurd h (by simp)
      · have hseg : segmentsWithPoints gpx = [] := by
          unfold segmentsWithPoints
          rw [List.filter_eq_nil_iff]
          intro s hs
          unfold totalPoints at h
          rw [List.sum_eq_zero_iff] at h
          have := h s.length (List.mem_map_of_mem List.length hs)
          simp [this]
        simp [processGpxFile, hseg]
  refine ⟨hempty, fun cell => ?_⟩
  rw [hempty]
  simp [fileTriples, cellCount]

/-- Witness for C6 at an unparseable file. -/
theorem bad_file_yields_empty_witness :
    ((none : Option Gpx) = none ∨ totalPoints none = 0) ∧
    (processGpxFile none [0] [0] = ([], [], []) ∧
     (∀ cell, cellCount (fileTriples (processGpxFile none [0] [0])) cell = 0)) :=
  ⟨Or.inl rfl, bad_file_yields_empty [0] [0] none (Or.inl rfl)⟩

end Heatmap

namespace Heatmap

theorem arange_getD_zero (start stop step : ℚ)
    (h : 0 < ⌈(stop - start) / step⌉) :
    (arange start stop step).getD 0 0 = start := by
  unfold arange
  have hlen : 0 < ((List.range (⌈(stop - start) / step⌉).toNat).map
      (fun i : ℕ => start + (i : ℚ) * step)).length := by
    rw [List.length_map, List.length_range]
    omega
  rw [List.getD_eq_getElem _ _ hlen, List.getElem_map, List.getElem_range]
  simp

/-- Claim C2 (refuted — code bug): in the bins-not-supplied branch the
constructor overwrites the center with the hard-coded `[-77, 39]` before
building the grid, so the caller's center is ignored.  At the docstring's own
example center `(-111, 45)` with `box_width = 10`, `grid_res = 1`, the
longitude bins are `arange(-82, -72, 1)` — centered on -77 — and differ from
the `arange(-116, -106, 1)` the claim (and the class docstring) promise. -/
theorem heatmap_init_uses_hardcoded_center :
    (heatmapInitBins none none (some (-111, 45)) 10 1 false).1
        = arange (-77 - 10 / 2) (-77 + 10 / 2) 1 ∧
    (heatmapInitBins none none (some (-111, 45)) 10 1 false).2.2
        = some (-77, 39) ∧
    (heatmapInitBins none none (some (-111, 45)) 10 1 false).1
        ≠ arange (-111 - 10 / 2) (-111 + 10 / 2) 1 := by
  refine ⟨rfl, rfl, ?_⟩
  intro hcon
  have heq : arange (-77 - 10 / 2) (-77 + 10 / 2) 1
      = arange (-111 - 10 / 2) (-111 + 10 / 2) 1 := hcon
  have hc1 : (0:ℤ) < ⌈((-77 + 10 / 2 : ℚ) - (-77 - 10 / 2)) / 1⌉ := by
    rw [show ((-77 + 10 / 2 : ℚ) - (-77 - 10 / 2)) / 1 = ((10:ℤ):ℚ) by norm_num,
      Int.ceil_intCast]
    norm_num
  have hc2 : (0:ℤ) < ⌈((-111 + 10 / 2 : ℚ) - (-111 - 10 / 2)) / 1⌉ := by
    rw [show ((-111 + 10 / 2 : ℚ) - (-111 - 10 / 2)) / 1 = ((10:ℤ):ℚ) by norm_num,
      Int.ceil_intCast]
    norm_num
  have h1 := arange_getD_zero (-77 - 10 / 2) (-77 + 10 / 2) 1 hc1
  have h2 := arange_getD_zero (-111 - 10 / 2) (-111 + 10 / 2) 1 hc2
  have hg : (arange (-77 - 10 / 2) (-77 + 10 / 2) 1).getD 0 0
      = (arange (-111 - 10 / 2) (-111 + 10 / 2) 1).getD 0 0 := by rw [heq]
  rw [h1, h2] at hg
  norm_num at hg

theorem npPercentile_zeta (values : List ℚ) (p : ℚ) :
    npPercentile values p
      = (values.insertionSort (· ≤ ·)).getD
            (⌊p * ((values.length : ℚ) - 1) / 100⌋).toNat 0
        + (p * ((values.length : ℚ) - 1) / 100
            - ⌊p * ((values.length : ℚ) - 1) / 100⌋)
          * ((values.insertionSort (· ≤ ·)).getD
                (⌈p * ((values.length : ℚ) - 1) / 100⌉).toNat 0
            - (values.insertionSort (· ≤ ·)).getD
                (⌊p * ((values.length : ℚ) - 1) / 100⌋).toNat 0) := rfl

/-- When the virtual rank `p/100 * (n-1)` is the natural number `k`, the
percentile is exactly the `k`-th order statistic. -/
theorem npPercentile_of_integral_rank (values : List ℚ) (p : ℚ) (k : ℕ)
    (hk : p * ((values.length : ℚ) - 1) / 100 = (k : ℚ)) :
    npPercentile values p = (values.insertionSort (· ≤ ·)).getD k 0 := by
  rw [npPercentile_zeta, hk, Int.floor_natCast, Int.ceil_natCast,
    Int.toNat_natCast]
  ring

theorem ceil_one_half : ⌈(1/2 : ℚ)⌉ = 1 := by
  rw [Int.ceil_eq_iff]
  norm_num

/-- Claim C3 counterexample: the saturation transform is not idempotent.
On `values = [0, 10]` with `p = 50` the first clip thresholds at 5 giving
`[0, 5]`; re-clipping recomputes the 50th percentile of `[0, 5]` as 5/2 and
produces `[0, 5/2] ≠ [0, 5]`. -/
theorem clip_not_idempotent :
    applyPercentileBody (applyPercentileBody [0, 10] 50) 50
      ≠ applyPercentileBody [0, 10] 50 := by
  have h1 : applyPercentileBody [0, 10] 50 = [0, 5] := by
    norm_num [applyPercentileBody, npPercentile, List.insertionSort,
      List.orderedInsert, ceil_one_half]
  have h2 : applyPercentileBody [0, 5] 50 = [0, 5/2] := by
    norm_num [applyPercentileBody, npPercentile, List.insertionSort,
      List.orderedInsert, ceil_one_half]
  rw [h1, h2]
  intro hcon
  have := List.head_eq_of_cons_eq (List.tail_eq_of_cons_eq hcon)
  norm_num at this

/-- Claim C3 amended: the percentile clip is idempotent whenever the virtual
rank `p/100 * (n-1)` lands exactly on an order statistic (an integer rank),
which includes `p = 100`; for fractional ranks a second application can
lower values further, as `clip_not_idempotent` shows. -/
theorem clip_idempotent_of_integral_rank (heat : List ℚ) (p : ℚ)
    (hne : heat ≠ []) (hp0 : 0 < p) (hp100 : p ≤ 100)
    (k : ℕ) (hk : p * ((heat.length : ℚ) - 1) / 100 = (k : ℚ)) :
    applyPercentileBody (applyPercentileBody heat p) p
      = applyPercentileBody heat p := by
  have hn : 0 < heat.length := List.length_pos.mpr hne
  have hn1 : (0:ℚ) ≤ (heat.length : ℚ) - 1 := by
    have h1 : (1:ℚ) ≤ (heat.length : ℚ) := by exact_mod_cast hn
    linarith
  have hklt : k < heat.length := by
    have hkle : (k : ℚ) ≤ (heat.length : ℚ) - 1 := by
      rw [← hk]
      have h2 := mul_le_mul_of_nonneg_right hp100 hn1
      linarith
    have h3 : (k : ℚ) < (heat.length : ℚ) := by linarith
    exact_mod_cast h3
  set s := heat.insertionSort (· ≤ ·) with hsdef
  have hslen : s.length = heat.length := (List.perm_insertionSort _ heat).length_eq
  have hssorted : s.Sorted (· ≤ ·) := List.sorted_insertionSort _ heat
  have hthr : npPercentile heat p = s.getD k 0 :=
    npPercentile_of_integral_rank heat p k hk
  set t := npPercentile heat p with htdef
  set f : ℚ → ℚ := fun x => if t < x then t else x with hfdef
  have hbody : applyPercentileBody heat p = heat.map f := rfl
  have hff : ∀ x, f (f x) = f x := by
    intro x
    by_cases hx : t < x
    · rw [hfdef]
      simp [hx, lt_irrefl]
    · rw [hfdef]
      simp [hx]
  have hft : f t = t := by
    rw [hfdef]
    simp [lt_irrefl]
  have hmono : ∀ a b : ℚ, a ≤ b → f a ≤ f b := by
    intro a b hab
    rw [hfdef]
    by_cases ha : t < a
    · have hb : t < b := lt_of_lt_of_le ha hab
      simp [ha, hb]
    · by_cases hb : t < b
      · simp [ha, hb]
        exact le_of_not_lt ha
      · simp [ha, hb]
        exact hab
  have hsorteq : (heat.map f).insertionSort (· ≤ ·) = s.map f := by
    refine List.eq_of_perm_of_sorted ?_ (List.sorted_insertionSort _ _)
      (List.Pairwise.map f hmono hssorted)
    exact (List.perm_insertionSort _ _).trans
      ((List.perm_insertionSort _ heat).symm.map f)
  have hthr2 : npPercentile (heat.map f) p = t := by
    have hq : p * (((heat.map f).length : ℚ) - 1) / 100 = (k : ℚ) := by
      rw [List.length_map]
      exact hk
    rw [npPercentile_of_integral_rank (heat.map f) p k hq, hsorteq]
    have hgd : (s.map f).getD k 0 = f (s.getD k 0) := by
      rw [List.getD_eq_getElem _ _ (by rw [List.length_map, hslen]; exact hklt),
        List.getD_eq_getElem _ _ (by rw [hslen]; exact hklt), List.getElem_map]
    rw [hgd, ← hthr]
    exact hft
  have hbody2 : applyPercentileBody (heat.map f) p = (heat.map f).map f := by
    rw [applyPercentileBody]
    rw [hthr2]
  rw [hbody, hbody2, List.map_map]
  exact List.map_congr_left (fun x _ => hff x)

/-- Witness for the amended C3 at `heat = [0, 10, 20]`, `p = 50`
(virtual rank `50/100 * 2 = 1`, an integer). -/
theorem clip_idempotent_witness :
    ([0, 10, 20] : List ℚ) ≠ [] ∧ (0:ℚ) < 50 ∧ (50:ℚ) ≤ 100 ∧
    (50 : ℚ) * ((([0, 10, 20] : List ℚ).length : ℚ) - 1) / 100 = ((1:ℕ) : ℚ) ∧
    applyPercentileBody (applyPercentileBody [0, 10, 20] 50) 50
      = applyPercentileBody [0, 10, 20] 50 :=
  ⟨by simp, by norm_num, by norm_num, by norm_num,
   clip_idempotent_of_integral_rank [0, 10, 20] 50 (by simp) (by norm_num)
     (by norm_num) 1 (by norm_num)⟩

/-- Claim C7 counterexample: `percentile = 0` lies outside `(0, 100]` but is
not rejected — the mask computes the 0th percentile (the minimum) and
saturates every value down to it, returning normally. -/
theorem percentile_zero_not_rejected :
    applyPercentileMask [1, 2, 3] 0 = Except.ok [1, 1, 1] := by
  unfold applyPercentileMask
  rw [if_neg (by norm_num), if_neg (by simp)]
  norm_num [applyPercentileBody, npPercentile, List.insertionSort,
    List.orderedInsert]

/-- Claim C7 amended: the mask fails exactly for percentiles outside
`[0, 100]` (numpy's check) — `percentile = 0` is accepted — and through
`make_map` a percentile ≥ 100 skips the mask entirely, so it can never
raise there either. -/
theorem mask_rejects_iff (heat : List ℚ) (p : ℚ) (hne : heat ≠ []) :
    ((∃ e, applyPercentileMask heat p = Except.error e) ↔ (p < 0 ∨ 100 < p)) ∧
    (100 ≤ p → makeMapHeat heat p = Except.ok heat) := by
  constructor
  · by_cases h : p < 0 ∨ 100 < p
    · unfold applyPercentileMask
      rw [if_pos h]
      simp [h]
    · unfold applyPercentileMask
      rw [if_neg h]
      have hem : ¬ (heat.isEmpty = true) := by
        simpa [List.isEmpty_iff] using hne
      rw [if_neg hem]
      simp [h]
  · intro h100
    unfold makeMapHeat
    rw [if_neg (not_lt.mpr h100)]

/-- Witness for the amended C7 at `heat = [1, 2, 3]`, `p = 200`. -/
theorem mask_rejects_iff_witness :
    ([1, 2, 3] : List ℚ) ≠ [] ∧
    (((∃ e, applyPercentileMask [1, 2, 3] 200 = Except.error e)
        ↔ ((200:ℚ) < 0 ∨ (100:ℚ) < 200)) ∧
     ((100:ℚ) ≤ 200 → makeMapHeat [1, 2, 3] 200 = Except.ok [1, 2, 3])) :=
  ⟨by simp, mask_rejects_iff [1, 2, 3] 200 (by simp)⟩

end Heatmap
